import Mathlib

/-!
# base58id: a fixed-width Base58 codec for 64-bit unsigned identifiers

Shallow embedding of `src/extension/base58id.c`.

Conventions of the embedding:

* a byte (`char`, `unsigned char`) is a `Nat`;
* a `const char *` is the list of bytes found from the pointer on; the string it
  denotes ends at the first `0` byte, and the end of the list also counts as the
  terminator (`cstring` gives the denoted string);
* `uint64` / `uint32` values are `Nat`, reduced `% 2^64` / `% 2^32` where the C
  arithmetic can wrap; an `int64` datum is an `Int` in `[-2^63, 2^63)`;
* the two file-level statics `inited` and `B58_IDX` form the explicit state
  `B58State`, threaded through every function that calls `b58_init`;
* `ereport(ERROR, ...)` does not return: functions that can raise give a `Res`.
-/

namespace Base58Id

set_option maxRecDepth 100000

/-! ## Results and C strings -/

/-- Outcome of a C function that may raise through `ereport(ERROR, ...)`, or may
write outside a local buffer (undefined behaviour, kept apart from errors). -/
inductive Res (α : Type) where
  | ok (a : α)
  | ereport (msg : String)
  | outOfBounds
  deriving DecidableEq, Repr

/-- Whether the call raised through `ereport(ERROR, ...)`. -/
def Res.isError {α : Type} : Res α → Bool
  | Res.ereport _ => true
  | _ => false

/-- The string a `char *` denotes: the bytes before the first `0` byte. -/
def cstring (p : List Nat) : List Nat :=
  p.takeWhile (fun c => c != 0)

/-- C `strlen`. -/
def strlen (p : List Nat) : Nat :=
  (cstring p).length

/-! ## Alphabet and inverse index (lines 11-23) -/

/-- `static const char *B58_ALPH = "123456789ABC...xyz";` as bytes. -/
def B58_ALPH : List Nat :=
  "123456789ABCDEFGHJKLMNPQRSTUVWXYZabcdefghijkmnopqrstuvwxyz".toList.map Char.toNat

/-- `B58_ALPH[i]`; index 58 reads the terminating `0` of the literal. -/
def B58_ALPH_at (i : Nat) : Nat :=
  B58_ALPH.getD i 0

/-- The statics `inited` (local to `b58_init`) and `B58_IDX[128]`. -/
structure B58State where
  inited : Bool
  B58_IDX : List Int
  deriving DecidableEq, Repr

/-- State at load time: C zero-initialises statics. -/
def B58State.initial : B58State :=
  { inited := false, B58_IDX := List.replicate 128 0 }

/-- First loop of `b58_init`: `for (int i = 0; i < 128; i++) B58_IDX[i] = -1;` -/
def b58_init_clear (idx : List Int) : List Int :=
  (List.range 128).foldl (fun t i => t.set i (-1)) idx

/-- Second loop of `b58_init`, from index `i` on, `alph` being the bytes of
`B58_ALPH` from `i` on:
`for (int i = 0; B58_ALPH[i]; i++) B58_IDX[(unsigned char)B58_ALPH[i]] = i;` -/
def b58_init_fill : List Nat → Nat → List Int → List Int
  | [], _, idx => idx
  | c :: alph, i, idx =>
    if c = 0 then idx else b58_init_fill alph (i + 1) (idx.set c (Int.ofNat i))

/-- `b58_init`. -/
def b58_init (st : B58State) : B58State :=
  if st.inited then st
  else
    { inited := true
      B58_IDX := b58_init_fill B58_ALPH 0 (b58_init_clear st.B58_IDX) }

/-- The states a process can be in: before and after the first `b58_init`. -/
def B58State.Reachable (st : B58State) : Prop :=
  st = B58State.initial ∨ st = b58_init B58State.initial

/-- The inverse index once `b58_init` has run. -/
def idxT : List Int := (b58_init B58State.initial).B58_IDX

/-! ## Encode (lines 25-59) -/

/-- `#define B58_WIDTH 11` -/
def B58_WIDTH : Nat := 11

/-- The `while (val > 0)` loop of `b58_encode_u64` (lines 42-47), on the local
`tmp` buffer and its fill count `len`. A write past the end of `tmp` gives `none`. -/
def b58_encode_loop (val : Nat) (tmp : List Nat) (len : Nat) : Option (List Nat × Nat) :=
  if h : val > 0 then
    let q := val / 58
    let r := (val - q * 58) % 2 ^ 32
    if len < tmp.length then
      b58_encode_loop q (tmp.set len (B58_ALPH_at r)) (len + 1)
    else none
  else some (tmp, len)
termination_by val
decreasing_by exact Nat.div_lt_self h (by decide)

/-- Digit collection of `b58_encode_u64` (lines 31-48): `char tmp[24]; int len = 0;`
then the `val == 0` branch or the loop. `tmp` starts zero-filled here; the C
array is uninitialised, and only cells written before are read later. -/
def b58_encode_collect (val : Nat) : Option (List Nat × Nat) :=
  if val = 0 then some ((List.replicate 24 0).set 0 49, 1)
  else b58_encode_loop val (List.replicate 24 0) 0

/-- The padding loop of `b58_encode_u64` (lines 51-57): the twelve bytes written
to `buf`, the last being the terminator. -/
def b58_encode_pad (tmp : List Nat) (len : Nat) : List Nat :=
  (List.range B58_WIDTH).map (fun i => if i < len then tmp.getD (len - 1 - i) 0 else 49) ++ [0]

/-- `b58_encode_u64(val, buf, buflen)`: the bytes written to `buf`. -/
def b58_encode_u64 (val : Nat) (buflen : Nat) : Res (List Nat) :=
  if buflen < 24 then Res.ereport "internal buffer too small"
  else
    match b58_encode_collect val with
    | none => Res.outOfBounds
    | some (tmp, len) => Res.ok (b58_encode_pad tmp len)

/-! ## Decode (lines 61-80) -/

/-- `UINT64_MAX` -/
def UINT64_MAX : Nat := 2 ^ 64 - 1

/-- The `for (p = str; *p; p++)` loop of `b58_decode_u64` with accumulator `acc`;
`none` is `return false`, `some acc` is `*out = acc; return true`. -/
def b58_decode_loop (idx : List Int) : List Nat → Nat → Option Nat
  | [], acc => some acc
  | c :: p, acc =>
    if c = 0 then some acc
    else if c ≥ 128 ∨ idx.getD c 0 < 0 then none
    else
      let v := (idx.getD c 0).toNat % 2 ^ 32
      if acc > (UINT64_MAX - v) / 58 then none
      else b58_decode_loop idx p ((acc * 58 + v) % 2 ^ 64)

/-- `b58_decode_u64(str, out)`: the state after `b58_init()` and the value
stored in `*out` on success. -/
def b58_decode_u64 (st : B58State) (str : List Nat) : B58State × Option Nat :=
  let st1 := b58_init st
  (st1, b58_decode_loop st1.B58_IDX str 0)

/-! ## SQL-callable functions (lines 82-168) -/

/-- Reinterpretation `(int64) v` of a `uint64`. -/
def toInt64 (v : Nat) : Int :=
  if v % 2 ^ 64 < 2 ^ 63 then Int.ofNat (v % 2 ^ 64) else Int.ofNat (v % 2 ^ 64) - 2 ^ 64

/-- Reinterpretation `(uint64) d` of an `int64`. -/
def toUInt64 (d : Int) : Nat :=
  (d % 2 ^ 64).toNat

/-- `INT64_MAX` -/
def INT64_MAX : Nat := 2 ^ 63 - 1

/-- `#define GET_BASE58ID(n) ((uint64) PG_GETARG_INT64(n))` on the datum `d`. -/
def GET_BASE58ID (d : Int) : Nat := toUInt64 d

/-- `#define RET_BASE58ID(v) PG_RETURN_INT64((int64) (v))`: the datum returned. -/
def RET_BASE58ID (v : Nat) : Int := toInt64 v

/-- `*str == '\0'` -/
def isEmptyCStr (str : List Nat) : Bool :=
  str.headD 0 == 0

/-- `base58id_in`. -/
def base58id_in (st : B58State) (str : List Nat) : B58State × Res Int :=
  if isEmptyCStr str then (st, Res.ereport "invalid base58 value")
  else
    match b58_decode_u64 st str with
    | (st1, none) => (st1, Res.ereport "invalid base58 value")
    | (st1, some v) => (st1, Res.ok (RET_BASE58ID v))

/-- `pstrdup`: a fresh copy of the string, terminator included. -/
def pstrdup (buf : List Nat) : List Nat :=
  cstring buf ++ [0]

/-- `base58id_out`. -/
def base58id_out (d : Int) : Res (List Nat) :=
  let v := GET_BASE58ID d
  match b58_encode_u64 v 24 with
  | Res.ok buf => Res.ok (pstrdup buf)
  | Res.ereport m => Res.ereport m
  | Res.outOfBounds => Res.outOfBounds

/-- `base58id_to_bigint`. -/
def base58id_to_bigint (d : Int) : Res Int :=
  let v := GET_BASE58ID d
  if v > INT64_MAX then Res.ereport "value out of range for bigint"
  else Res.ok (toInt64 v)

/-- `bigint_to_base58id`. -/
def bigint_to_base58id (s : Int) : Res Int :=
  if s < 0 then Res.ereport "negative bigint cannot be cast to base58id"
  else Res.ok (RET_BASE58ID (toUInt64 s))

/-- `text_to_cstring`: the bytes of the `text` value followed by a terminator. -/
def text_to_cstring (t : List Nat) : List Nat :=
  t ++ [0]

/-- `text_to_base58id`. -/
def text_to_base58id (st : B58State) (t : List Nat) : B58State × Res Int :=
  let str := text_to_cstring t
  if isEmptyCStr str then (st, Res.ereport "invalid base58 value")
  else
    match b58_decode_u64 st str with
    | (st1, none) => (st1, Res.ereport "invalid base58 value")
    | (st1, some v) => (st1, Res.ok (RET_BASE58ID v))

/-! ## Comparisons (lines 170-210) -/

/-- `base58id_cmp` on the datums `da`, `db`: the `int32` returned. -/
def base58id_cmp (da db : Int) : Int :=
  let a := GET_BASE58ID da
  let b := GET_BASE58ID db
  if a < b then -1
  else if a > b then 1
  else 0

/-- `base58id_eq`. -/
def base58id_eq (da db : Int) : Bool :=
  decide (GET_BASE58ID da = GET_BASE58ID db)

/-- `base58id_ne`. -/
def base58id_ne (da db : Int) : Bool :=
  decide (GET_BASE58ID da ≠ GET_BASE58ID db)

/-- `base58id_lt`. -/
def base58id_lt (da db : Int) : Bool :=
  decide (GET_BASE58ID da < GET_BASE58ID db)

/-- `base58id_le`. -/
def base58id_le (da db : Int) : Bool :=
  decide (GET_BASE58ID da ≤ GET_BASE58ID db)

/-- `base58id_gt`. -/
def base58id_gt (da db : Int) : Bool :=
  decide (GET_BASE58ID da > GET_BASE58ID db)

/-- `base58id_ge`. -/
def base58id_ge (da db : Int) : Bool :=
  decide (GET_BASE58ID da ≥ GET_BASE58ID db)

/-- The lookup of `b58_decode_u64` (lines 72-73) on the byte `c`: `none` when
`c >= 128 || B58_IDX[c] < 0`, else the value `(uint32)B58_IDX[c]`. -/
def b58_lookup (idx : List Int) (c : Nat) : Option Nat :=
  if c ≥ 128 ∨ idx.getD c 0 < 0 then none
  else some ((idx.getD c 0).toNat % 2 ^ 32)

/-! ## Reference notions used in the statements -/

/-- Index of `c` in the alphabet (58 when `c` is not in it). -/
def digit (c : Nat) : Nat :=
  B58_ALPH.indexOf c

/-- Base-58 positional value of `c_1 ... c_n`: the sum of `digit c_k * 58^(n-k)`. -/
def posValue : List Nat → Nat
  | [] => 0
  | c :: s => digit c * 58 ^ s.length + posValue s

/-- Byte-wise lexicographic "strictly less" on strings (`strcmp(x, y) < 0`). -/
def bytesLt : List Nat → List Nat → Bool
  | [], [] => false
  | [], _ :: _ => true
  | _ :: _, [] => false
  | a :: x, b :: y => if a < b then true else if b < a then false else bytesLt x y

/-- The character the positional reference puts at position `i` (0 = leftmost)
of the 11-character encoding of `v`: `B58_ALPH[(v / 58^(10-i)) mod 58]`. -/
def refChar (v i : Nat) : Nat :=
  B58_ALPH_at ((v / 58 ^ (10 - i)) % 58)



/-! ## The tables, evaluated -/

theorem B58_ALPH_eq : B58_ALPH = [49, 50, 51, 52, 53, 54, 55, 56, 57, 65, 66, 67, 68, 69, 70, 71, 72, 74, 75, 76, 77, 78, 80, 81, 82, 83, 84, 85, 86, 87, 88, 89, 90, 97, 98, 99, 100, 101, 102, 103, 104, 105, 106, 107, 109, 110, 111, 112, 113, 114, 115, 116, 117, 118, 119, 120, 121, 122] := by decide

theorem idxT_eq : idxT = [-1, -1, -1, -1, -1, -1, -1, -1, -1, -1, -1, -1, -1, -1, -1, -1, -1, -1, -1, -1, -1, -1, -1, -1, -1, -1, -1, -1, -1, -1, -1, -1, -1, -1, -1, -1, -1, -1, -1, -1, -1, -1, -1, -1, -1, -1, -1, -1, -1, 0, 1, 2, 3, 4, 5, 6, 7, 8, -1, -1, -1, -1, -1, -1, -1, 9, 10, 11, 12, 13, 14, 15, 16, -1, 17, 18, 19, 20, 21, -1, 22, 23, 24, 25, 26, 27, 28, 29, 30, 31, 32, -1, -1, -1, -1, -1, -1, 33, 34, 35, 36, 37, 38, 39, 40, 41, 42, 43, -1, 44, 45, 46, 47, 48, 49, 50, 51, 52, 53, 54, 55, 56, 57, -1, -1, -1, -1, -1] := by
  simp only [idxT, b58_init, B58State.initial, B58_ALPH_eq]
  decide

theorem b58_init_idem (st : B58State) : b58_init (b58_init st) = b58_init st := by
  unfold b58_init
  by_cases h : st.inited = true <;> simp [h]

theorem b58_init_of_reachable (st : B58State) (h : st.Reachable) :
    b58_init st = b58_init B58State.initial := by
  rcases h with h | h
  · rw [h]
  · rw [h, b58_init_idem]

theorem b58_init_idx_of_reachable (st : B58State) (h : st.Reachable) :
    (b58_init st).B58_IDX = idxT := by
  rw [b58_init_of_reachable st h, idxT]

theorem alph_at_facts : ∀ r, r < 58 →
    B58_ALPH_at r ≠ 0 ∧ B58_ALPH_at r < 128 ∧ B58_ALPH_at r ∈ B58_ALPH ∧
      idxT.getD (B58_ALPH_at r) 0 = Int.ofNat r ∧ digit (B58_ALPH_at r) = r := by
  simp only [B58_ALPH_at, digit, idxT_eq, B58_ALPH_eq]
  decide

theorem mem_alph_facts : ∀ c, c ∈ B58_ALPH →
    c ≠ 0 ∧ c < 128 ∧ idxT.getD c 0 = Int.ofNat (digit c) ∧ digit c < 58 := by
  simp only [digit, idxT_eq, B58_ALPH_eq]
  decide

theorem not_mem_alph_facts : ∀ c, c < 128 → c ∉ B58_ALPH → idxT.getD c 0 < 0 := by
  simp only [idxT_eq, B58_ALPH_eq]
  decide



/-! ## The decode loop -/

theorem cstring_nil : cstring [] = [] := rfl

theorem cstring_cons_zero (p : List Nat) : cstring (0 :: p) = [] := by
  simp [cstring]

theorem cstring_cons_ne (c : Nat) (p : List Nat) (h : c ≠ 0) :
    cstring (c :: p) = c :: cstring p := by
  simp [cstring, List.takeWhile_cons, h]

theorem cstring_no_zero (p : List Nat) : ∀ c ∈ cstring p, c ≠ 0 := by
  intro c hc
  have := List.mem_takeWhile_imp hc
  simpa using this

theorem cstring_of_no_zero (s : List Nat) (h : ∀ c ∈ s, c ≠ 0) : cstring s = s := by
  induction s with
  | nil => rfl
  | cons c s ih =>
    rw [cstring_cons_ne c s (h c (List.mem_cons_self c s))]
    rw [ih (fun d hd => h d (List.mem_cons_of_mem c hd))]

theorem cstring_append_zero (s rest : List Nat) (h : ∀ c ∈ s, c ≠ 0) :
    cstring (s ++ 0 :: rest) = s := by
  induction s with
  | nil => exact cstring_cons_zero rest
  | cons c s ih =>
    rw [List.cons_append, cstring_cons_ne c _ (h c (List.mem_cons_self c s))]
    rw [ih (fun d hd => h d (List.mem_cons_of_mem c hd))]

/-- The loop reads only the string its argument denotes. -/
theorem decode_loop_cstring (idx : List Int) (p : List Nat) (acc : Nat) :
    b58_decode_loop idx p acc = b58_decode_loop idx (cstring p) acc := by
  induction p generalizing acc with
  | nil => rfl
  | cons c p ih =>
    by_cases hc : c = 0
    · subst hc
      rw [cstring_cons_zero]
      simp [b58_decode_loop]
    · rw [cstring_cons_ne c p hc]
      simp only [b58_decode_loop, hc, if_false]
      split
      · rfl
      · split
        · rfl
        · exact ih _

/-- The overflow test of line 75 is exact. -/
theorem overflow_test_iff (acc v : Nat) (hv : v < 58) :
    acc > (UINT64_MAX - v) / 58 ↔ 2 ^ 64 ≤ acc * 58 + v := by
  unfold UINT64_MAX
  constructor
  · intro h
    have := (Nat.div_lt_iff_lt_mul (by decide : 0 < 58)).1 h
    omega
  · intro h
    apply (Nat.div_lt_iff_lt_mul (by decide : 0 < 58)).2
    omega

/-- On a string of alphabet characters the loop computes the positional value
on top of the accumulator, and fails exactly when that leaves 64 bits. -/
theorem decode_loop_alph (s : List Nat) (hs : ∀ c ∈ s, c ∈ B58_ALPH) (acc : Nat)
    (hacc : acc < 2 ^ 64) :
    b58_decode_loop idxT s acc =
      if acc * 58 ^ s.length + posValue s < 2 ^ 64
      then some (acc * 58 ^ s.length + posValue s) else none := by
  induction s generalizing acc with
  | nil =>
    simp only [b58_decode_loop, posValue, List.length_nil, pow_zero, mul_one, add_zero, if_pos hacc]
  | cons c s ih =>
    obtain ⟨hc0, hc128, hidx, hd⟩ := mem_alph_facts c (hs c (List.mem_cons_self c s))
    have hs1 : ∀ d ∈ s, d ∈ B58_ALPH := fun d hd => hs d (List.mem_cons_of_mem c hd)
    have hv : (idxT.getD c 0).toNat % 2 ^ 32 = digit c := by
      rw [hidx]
      simp only [Int.ofNat_eq_coe, Int.toNat_ofNat]
      omega
    have hnn : ¬ (c ≥ 128 ∨ idxT.getD c 0 < 0) := by
      rw [hidx]
      simp only [Int.ofNat_eq_coe]
      omega
    simp only [b58_decode_loop, hc0, hnn, if_false, hv, overflow_test_iff _ _ hd]
    have hpow : 0 < 58 ^ s.length := pow_pos (by decide) _
    have key : acc * 58 ^ (c :: s).length + posValue (c :: s)
        = (acc * 58 + digit c) * 58 ^ s.length + posValue s := by
      simp only [List.length_cons, posValue, pow_succ]
      ring
    rw [key]
    by_cases hov : 2 ^ 64 ≤ acc * 58 + digit c
    · have : 2 ^ 64 ≤ (acc * 58 + digit c) * 58 ^ s.length :=
        le_trans hov (Nat.le_mul_of_pos_right _ hpow)
      rw [if_pos hov, if_neg (by omega)]
    · rw [if_neg hov]
      have hlt : acc * 58 + digit c < 2 ^ 64 := by omega
      rw [Nat.mod_eq_of_lt hlt, ih hs1 _ hlt]

/-- A string with a byte outside the alphabet makes the loop fail. -/
theorem decode_loop_bad (s : List Nat) (h0 : ∀ c ∈ s, c ≠ 0)
    (hbad : ∃ c ∈ s, c ∉ B58_ALPH) (acc : Nat) :
    b58_decode_loop idxT s acc = none := by
  induction s generalizing acc with
  | nil => simp at hbad
  | cons c s ih =>
    have hc0 := h0 c (List.mem_cons_self c s)
    simp only [b58_decode_loop, hc0, if_false]
    by_cases hbadc : c ≥ 128 ∨ idxT.getD c 0 < 0
    · rw [if_pos hbadc]
    · rw [if_neg hbadc]
      split
      · rfl
      · apply ih (fun d hd => h0 d (List.mem_cons_of_mem c hd))
        obtain ⟨d, hd, hdn⟩ := hbad
        rcases List.mem_cons.1 hd with rfl | hds
        · exfalso
          apply hbadc
          by_cases h128 : d ≥ 128
          · exact Or.inl h128
          · exact Or.inr (not_mem_alph_facts d (by omega) hdn)
        · exact ⟨d, hds, hdn⟩



/-! ## The encode loops -/

theorem getD_set_self (l : List Nat) (i a : Nat) (h : i < l.length) :
    (l.set i a).getD i 0 = a := by
  simp [List.getD_eq_getElem?_getD, List.getElem?_set, h]

theorem getD_set_ne (l : List Nat) (i j a : Nat) (h : i ≠ j) :
    (l.set i a).getD j 0 = l.getD j 0 := by
  simp [List.getD_eq_getElem?_getD, List.getElem?_set, h]

/-- Line 44: `val - q*58` is the remainder, and fits the `uint32`. -/
theorem encode_rem (val : Nat) : (val - val / 58 * 58) % 2 ^ 32 = val % 58 := by
  have h1 := Nat.div_add_mod val 58
  have h2 := Nat.mod_lt val (by decide : 58 > 0)
  have h3 : val - val / 58 * 58 = val % 58 := by omega
  rw [h3]
  exact Nat.mod_eq_of_lt (by omega)

/-- The digit loop, when `tmp` has room: it appends the alphabet symbols of the
base-58 digits of `val`, least significant first, and keeps what was there. -/
theorem encode_loop_spec (val : Nat) : ∀ (tmp : List Nat) (len : Nat),
    len + (Nat.digits 58 val).length ≤ tmp.length →
    ∃ tmp1, b58_encode_loop val tmp len = some (tmp1, len + (Nat.digits 58 val).length) ∧
      tmp1.length = tmp.length ∧
      (∀ j, j < (Nat.digits 58 val).length →
        tmp1.getD (len + j) 0 = B58_ALPH_at ((Nat.digits 58 val).getD j 0)) ∧
      (∀ j, j < len → tmp1.getD j 0 = tmp.getD j 0) := by
  induction val using Nat.strong_induction_on with
  | _ val ih =>
    intro tmp len hroom
    by_cases hv : val > 0
    · have hdig : Nat.digits 58 val = (val % 58) :: Nat.digits 58 (val / 58) :=
        Nat.digits_def' (by decide) hv
      rw [hdig] at hroom ⊢
      simp only [List.length_cons] at hroom ⊢
      have hlen : len < tmp.length := by omega
      obtain ⟨tmp1, h1, h2, h3, h4⟩ :=
        ih (val / 58) (Nat.div_lt_self hv (by decide)) (tmp.set len (B58_ALPH_at (val % 58)))
          (len + 1) (by rw [List.length_set]; omega)
      refine ⟨tmp1, ?_, ?_, ?_, ?_⟩
      · rw [b58_encode_loop]
        simp only [hv, dite_true, hlen, if_true, encode_rem]
        rw [h1]
        congr 2
        omega
      · rw [h2, List.length_set]
      · intro j hj
        cases j with
        | zero =>
          rw [Nat.add_zero, h4 len (by omega), getD_set_self _ _ _ hlen]
          rfl
        | succ j =>
          have := h3 j (by omega)
          rw [show len + (j + 1) = len + 1 + j by omega, this]
          rfl
      · intro j hj
        rw [h4 j (by omega), getD_set_ne _ _ _ _ (by omega)]
    · have hv0 : val = 0 := by omega
      subst hv0
      refine ⟨tmp, ?_, rfl, ?_, fun _ _ => rfl⟩
      · rw [b58_encode_loop]
        simp
      · intro j hj
        simp at hj

/-- A 64-bit value has at most 11 base-58 digits. -/
theorem digits_length_le (v : Nat) (hv : v < 2 ^ 64) : (Nat.digits 58 v).length ≤ 11 := by
  by_cases h0 : v = 0
  · subst h0
    simp
  · by_contra hcon
    have h12 : 12 ≤ (Nat.digits 58 v).length := by omega
    have h1 : 58 ^ (Nat.digits 58 v).length ≤ 58 * v :=
      Nat.base_pow_length_digits_le 58 v (by decide) h0
    have h2 : 58 ^ 12 ≤ 58 ^ (Nat.digits 58 v).length :=
      Nat.pow_le_pow_right (by decide) h12
    have h3 : (58 : Nat) ^ 12 = 1449225352009601191936 := by norm_num
    have h4 : (2 : Nat) ^ 64 = 18446744073709551616 := by norm_num
    omega

theorem digits_length_pos (v : Nat) (hv : v ≠ 0) : 1 ≤ (Nat.digits 58 v).length := by
  rw [Nat.digits_def' (by decide) (Nat.pos_of_ne_zero hv)]
  simp

/-- What `b58_encode_collect` leaves in `tmp` and `len`. -/
theorem encode_collect_spec (v : Nat) (hv : v < 2 ^ 64) :
    ∃ tmp len, b58_encode_collect v = some (tmp, len) ∧ tmp.length = 24 ∧
      1 ≤ len ∧ len ≤ 11 ∧ len = max 1 (Nat.digits 58 v).length ∧
      (∀ j, j < len → tmp.getD j 0 = B58_ALPH_at ((Nat.digits 58 v).getD j 0)) := by
  by_cases h0 : v = 0
  · subst h0
    refine ⟨(List.replicate 24 0).set 0 49, 1, ?_, ?_, ?_, ?_, ?_, ?_⟩
    · simp [b58_encode_collect]
    · simp
    · omega
    · omega
    · simp
    · intro j hj
      have : j = 0 := by omega
      subst this
      simp [B58_ALPH_at, B58_ALPH_eq]
  · have hL := digits_length_le v hv
    have hpos := digits_length_pos v h0
    obtain ⟨tmp1, h1, h2, h3, _⟩ :=
      encode_loop_spec v (List.replicate 24 0) 0 (by simp; omega)
    refine ⟨tmp1, (Nat.digits 58 v).length, ?_, ?_, hpos, hL, ?_, ?_⟩
    · simp only [b58_encode_collect, h0, if_false]
      rw [h1, Nat.zero_add]
    · rw [h2]; simp
    · omega
    · intro j hj
      have := h3 j hj
      rwa [Nat.zero_add] at this


/-! ## Further facts on decode and the datum casts -/

theorem decode_loop_lt (idx : List Int) (p : List Nat) (acc v : Nat) (hacc : acc < 2 ^ 64)
    (h : b58_decode_loop idx p acc = some v) : v < 2 ^ 64 := by
  induction p generalizing acc with
  | nil =>
    simp only [b58_decode_loop, Option.some.injEq] at h
    omega
  | cons c p ih =>
    simp only [b58_decode_loop] at h
    split at h
    · simp only [Option.some.injEq] at h
      omega
    · split at h
      · exact absurd h (by simp)
      · split at h
        · exact absurd h (by simp)
        · exact ih _ (Nat.mod_lt _ (by norm_num)) h

theorem toUInt64_toInt64 (v : Nat) (hv : v < 2 ^ 64) : toUInt64 (toInt64 v) = v := by
  unfold toUInt64 toInt64
  rw [Nat.mod_eq_of_lt hv]
  split
  · simp only [Int.ofNat_eq_coe]
    omega
  · simp only [Int.ofNat_eq_coe]
    omega

theorem toInt64_toUInt64 (d : Int) (h1 : -2 ^ 63 ≤ d) (h2 : d < 2 ^ 63) :
    toInt64 (toUInt64 d) = d := by
  unfold toUInt64 toInt64
  split <;> simp only [Int.ofNat_eq_coe] <;> omega

theorem posValue_eq_sum (s : List Nat) :
    posValue s = ∑ k ∈ Finset.range s.length, digit (s.getD k 0) * 58 ^ (s.length - 1 - k) := by
  induction s with
  | nil => simp [posValue]
  | cons c s ih =>
    rw [posValue, ih, List.length_cons, Finset.sum_range_succ']
    rw [Nat.add_comm]
    congr 1
    apply Finset.sum_congr rfl
    intro k _
    simp only [List.getD_cons_succ, Nat.add_sub_cancel]
    rw [show s.length - (k + 1) = s.length - 1 - k by omega]

/-- A digit list, least significant first, denotes the sum of its digits times
the powers of 58. -/
theorem ofDigits_eq_sum_getD (l : List Nat) :
    Nat.ofDigits 58 l = ∑ j ∈ Finset.range l.length, l.getD j 0 * 58 ^ j := by
  induction l with
  | nil => simp
  | cons a l ih =>
    rw [Nat.ofDigits_cons, ih, List.length_cons, Finset.sum_range_succ', Finset.mul_sum]
    rw [Nat.add_comm]
    congr 1
    · apply Finset.sum_congr rfl
      intro j _
      simp only [List.getD_cons_succ, pow_succ]
      ring
    · simp

theorem encode_pad_getD (tmp : List Nat) (len i : Nat) (hi : i < 11) :
    (b58_encode_pad tmp len).getD i 0 = if i < len then tmp.getD (len - 1 - i) 0 else 49 := by
  have hlen : i < ((List.range B58_WIDTH).map
      (fun i => if i < len then tmp.getD (len - 1 - i) 0 else 49)).length := by
    simpa [B58_WIDTH] using hi
  rw [b58_encode_pad, List.getD_append _ _ _ _ hlen, List.getD_eq_getElem _ _ hlen]
  simp

/-! ## Claims -/

/-- C1 (the round trip fails): on `v = 1` the encoder writes `"21111111111"`,
the digit followed by padding instead of padding followed by the digit, and the
decoder reads that string as `58^10 = 430804206899405824`; so does
`base58id_in` on the output of `base58id_out`. On `v = 57` the encoder writes
`"z1111111111"`, on which the decoder fails. -/
theorem roundtrip_breaks_at_one :
    b58_encode_u64 1 24 = Res.ok [50, 49, 49, 49, 49, 49, 49, 49, 49, 49, 49, 0] ∧
    (b58_decode_u64 B58State.initial [50, 49, 49, 49, 49, 49, 49, 49, 49, 49, 49, 0]).2
      = some 430804206899405824 ∧
    base58id_out 1 = Res.ok [50, 49, 49, 49, 49, 49, 49, 49, 49, 49, 49, 0] ∧
    (base58id_in B58State.initial [50, 49, 49, 49, 49, 49, 49, 49, 49, 49, 49, 0]).2
      = Res.ok 430804206899405824 ∧
    b58_encode_u64 57 24 = Res.ok [122, 49, 49, 49, 49, 49, 49, 49, 49, 49, 49, 0] ∧
    (b58_decode_u64 B58State.initial [122, 49, 49, 49, 49, 49, 49, 49, 49, 49, 49, 0]).2
      = none := by
  have henc : b58_encode_u64 1 24 = Res.ok [50, 49, 49, 49, 49, 49, 49, 49, 49, 49, 49, 0] := by
    simp [b58_encode_u64, b58_encode_collect, b58_encode_loop, b58_encode_pad, B58_WIDTH,
      B58_ALPH_at, B58_ALPH_eq, List.range, List.range.loop]
  have henc57 :
      b58_encode_u64 57 24 = Res.ok [122, 49, 49, 49, 49, 49, 49, 49, 49, 49, 49, 0] := by
    simp [b58_encode_u64, b58_encode_collect, b58_encode_loop, b58_encode_pad, B58_WIDTH,
      B58_ALPH_at, B58_ALPH_eq, List.range, List.range.loop]
  refine ⟨henc, by decide, ?_, by decide, henc57, by decide⟩
  have hg : GET_BASE58ID 1 = 1 := by decide
  simp only [base58id_out, hg, henc]
  decide

/-- C2: when `b58_decode_u64` succeeds on `str`, the value it stores is the
exact positional value of the string `c_1 ... c_n` that `str` denotes, the sum
over `k` of `digit c_k * 58^(n-k)` (`k` counted from 0 below), and that sum is
below `2^64`: nothing was reduced modulo `2^64`. -/
theorem decode_positional (st : B58State) (hst : st.Reachable) (str : List Nat) (v : Nat)
    (h : (b58_decode_u64 st str).2 = some v) :
    v = ∑ k ∈ Finset.range (cstring str).length,
          digit ((cstring str).getD k 0) * 58 ^ ((cstring str).length - 1 - k) ∧
    ∑ k ∈ Finset.range (cstring str).length,
          digit ((cstring str).getD k 0) * 58 ^ ((cstring str).length - 1 - k) < 2 ^ 64 := by
  rw [← posValue_eq_sum]
  simp only [b58_decode_u64, b58_init_idx_of_reachable st hst] at h
  rw [decode_loop_cstring] at h
  by_cases hall : ∀ c ∈ cstring str, c ∈ B58_ALPH
  · rw [decode_loop_alph _ hall 0 (by norm_num)] at h
    simp only [Nat.zero_mul, Nat.zero_add] at h
    split at h
    · simp only [Option.some.injEq] at h
      omega
    · exact absurd h (by simp)
  · have hbad : ∃ c ∈ cstring str, c ∉ B58_ALPH := by
      by_contra hcon
      apply hall
      intro c hc
      by_contra hn
      exact hcon ⟨c, hc, hn⟩
    rw [decode_loop_bad _ (cstring_no_zero str) hbad] at h
    exact absurd h (by simp)

/-- Witness of C2: `"2z"` decodes to `1 * 58 + 57 = 115`. -/
theorem decode_positional_witness :
    115 = ∑ k ∈ Finset.range (cstring [50, 122, 0]).length,
          digit ((cstring [50, 122, 0]).getD k 0) * 58 ^ ((cstring [50, 122, 0]).length - 1 - k) ∧
    ∑ k ∈ Finset.range (cstring [50, 122, 0]).length,
          digit ((cstring [50, 122, 0]).getD k 0) * 58 ^ ((cstring [50, 122, 0]).length - 1 - k)
      < 2 ^ 64 :=
  decode_positional B58State.initial (Or.inl rfl) [50, 122, 0] 115 (by decide)

/-- C3: on a string of alphabet characters `b58_decode_u64` fails exactly when
the positional value of the string exceeds `2^64 - 1`, and otherwise stores that
value; twelve copies of `z` fail. -/
theorem decode_overflow_exact (st : B58State) (hst : st.Reachable) (str : List Nat)
    (halph : ∀ c ∈ cstring str, c ∈ B58_ALPH) :
    ((b58_decode_u64 st str).2 = none ↔ posValue (cstring str) > 2 ^ 64 - 1) ∧
    (posValue (cstring str) ≤ 2 ^ 64 - 1 →
      (b58_decode_u64 st str).2 = some (posValue (cstring str))) ∧
    (b58_decode_u64 st (List.replicate 12 122)).2 = none := by
  have hgen : ∀ s : List Nat, (∀ c ∈ cstring s, c ∈ B58_ALPH) →
      (b58_decode_u64 st s).2 =
        if posValue (cstring s) < 2 ^ 64 then some (posValue (cstring s)) else none := by
    intro s hs
    simp only [b58_decode_u64, b58_init_idx_of_reachable st hst]
    rw [decode_loop_cstring, decode_loop_alph _ hs 0 (by norm_num)]
    simp only [Nat.zero_mul, Nat.zero_add]
  refine ⟨?_, ?_, ?_⟩
  · rw [hgen str halph]
    constructor
    · intro h
      split at h
      · exact absurd h (by simp)
      · omega
    · intro h
      rw [if_neg (by omega)]
  · intro h
    rw [hgen str halph, if_pos (by omega)]
  · rw [hgen _ (by decide), if_neg (by decide)]

/-- Witness of C3, at the string `"2z"`. -/
theorem decode_overflow_exact_witness :
    ((b58_decode_u64 B58State.initial [50, 122, 0]).2 = none ↔
        posValue (cstring [50, 122, 0]) > 2 ^ 64 - 1) ∧
    (posValue (cstring [50, 122, 0]) ≤ 2 ^ 64 - 1 →
      (b58_decode_u64 B58State.initial [50, 122, 0]).2 = some (posValue (cstring [50, 122, 0]))) ∧
    (b58_decode_u64 B58State.initial (List.replicate 12 122)).2 = none :=
  decode_overflow_exact B58State.initial (Or.inl rfl) [50, 122, 0] (by decide)

/-- C4: `b58_decode_u64` fails on every string that contains a byte outside the
alphabet; `0`, `O`, `I`, `l` and all bytes from 128 up are outside it. -/
theorem decode_rejects_invalid (st : B58State) (hst : st.Reachable) (str : List Nat)
    (hbad : ∃ c ∈ cstring str, c ∉ B58_ALPH) :
    (b58_decode_u64 st str).2 = none ∧
    48 ∉ B58_ALPH ∧ 79 ∉ B58_ALPH ∧ 73 ∉ B58_ALPH ∧ 108 ∉ B58_ALPH ∧
    ∀ c, 128 ≤ c → c ∉ B58_ALPH := by
  refine ⟨?_, by decide, by decide, by decide, by decide, ?_⟩
  · simp only [b58_decode_u64, b58_init_idx_of_reachable st hst]
    rw [decode_loop_cstring]
    exact decode_loop_bad _ (cstring_no_zero str) hbad 0
  · intro c hc hmem
    have := (mem_alph_facts c hmem).2.1
    omega

/-- Witness of C4, at the string `"1O"`. -/
theorem decode_rejects_invalid_witness :
    (b58_decode_u64 B58State.initial [49, 79, 0]).2 = none ∧
    48 ∉ B58_ALPH ∧ 79 ∉ B58_ALPH ∧ 73 ∉ B58_ALPH ∧ 108 ∉ B58_ALPH ∧
    ∀ c, 128 ≤ c → c ∉ B58_ALPH :=
  decode_rejects_invalid B58State.initial (Or.inl rfl) [49, 79, 0] ⟨79, by decide, by decide⟩

/-- C5 as stated fails: on the empty string `b58_decode_u64` returns success
with value 0. -/
theorem decode_empty_succeeds :
    (b58_decode_u64 B58State.initial []).2 = some 0 ∧
    ¬ ((b58_decode_u64 B58State.initial []).2 = none) := by
  constructor
  · rfl
  · intro h
    exact absurd h (by decide)

/-- C5, amended: on an empty string (`*str` is the terminator) `b58_decode_u64`
returns success with value 0 in every state; the empty input is rejected by the
callers `base58id_in` and `text_to_base58id`, which raise an error before they
call the decoder, leaving the state as it was. -/
theorem empty_rejected_by_callers (st : B58State) (rest : List Nat) :
    (b58_decode_u64 st []).2 = some 0 ∧
    (b58_decode_u64 st (0 :: rest)).2 = some 0 ∧
    base58id_in st [] = (st, Res.ereport "invalid base58 value") ∧
    base58id_in st (0 :: rest) = (st, Res.ereport "invalid base58 value") ∧
    text_to_base58id st [] = (st, Res.ereport "invalid base58 value") := by
  refine ⟨rfl, ?_, rfl, ?_, rfl⟩
  · simp [b58_decode_u64, b58_decode_loop]
  · simp [base58id_in, isEmptyCStr]

/-- C6: `base58id_in` raises an error exactly when its input string is empty or
`b58_decode_u64` fails on it, and otherwise returns the datum of the decoded
value, which reads back (`GET_BASE58ID`) as that value; the same holds of
`text_to_base58id` on the C string made from its `text` argument. -/
theorem text_input_error_iff (st : B58State) (str t : List Nat) :
    (((base58id_in st str).2.isError = true ↔
        (cstring str = [] ∨ (b58_decode_u64 st str).2 = none)) ∧
      (∀ v, cstring str ≠ [] → (b58_decode_u64 st str).2 = some v →
        (base58id_in st str).2 = Res.ok (RET_BASE58ID v) ∧ GET_BASE58ID (RET_BASE58ID v) = v)) ∧
    (((text_to_base58id st t).2.isError = true ↔
        (cstring (text_to_cstring t) = [] ∨ (b58_decode_u64 st (text_to_cstring t)).2 = none)) ∧
      (∀ v, cstring (text_to_cstring t) ≠ [] →
        (b58_decode_u64 st (text_to_cstring t)).2 = some v →
        (text_to_base58id st t).2 = Res.ok (RET_BASE58ID v) ∧
          GET_BASE58ID (RET_BASE58ID v) = v)) := by
  have hempty : ∀ s : List Nat, isEmptyCStr s = true ↔ cstring s = [] := by
    intro s
    cases s with
    | nil => simp [isEmptyCStr, cstring]
    | cons c p =>
      by_cases hc : c = 0
      · subst hc
        simp [isEmptyCStr, cstring]
      · simp [isEmptyCStr, cstring, List.takeWhile_cons, hc]
  have hval : ∀ (s : List Nat) (v : Nat), (b58_decode_u64 st s).2 = some v → v < 2 ^ 64 := by
    intro s v h
    exact decode_loop_lt _ s 0 v (by norm_num) h
  have hin : ∀ s : List Nat, ∀ r : B58State × Res Int,
      r = (if isEmptyCStr s then (st, Res.ereport "invalid base58 value")
        else
          match b58_decode_u64 st s with
          | (st1, none) => (st1, Res.ereport "invalid base58 value")
          | (st1, some v) => (st1, Res.ok (RET_BASE58ID v))) →
      ((r.2.isError = true ↔ (cstring s = [] ∨ (b58_decode_u64 st s).2 = none)) ∧
        (∀ v, cstring s ≠ [] → (b58_decode_u64 st s).2 = some v →
          r.2 = Res.ok (RET_BASE58ID v) ∧ GET_BASE58ID (RET_BASE58ID v) = v)) := by
    intro s r hr
    by_cases he : isEmptyCStr s = true
    · have hc := (hempty s).1 he
      rw [if_pos he] at hr
      subst hr
      exact ⟨by simp [Res.isError, hc], fun v hne _ => absurd hc hne⟩
    · have hc : cstring s ≠ [] := fun h => he ((hempty s).2 h)
      rw [if_neg he] at hr
      cases hdec : b58_decode_u64 st s with
      | mk st1 o =>
        rw [hdec] at hr
        cases o with
        | none =>
          subst hr
          simp [Res.isError]
        | some w =>
          subst hr
          have hw : w < 2 ^ 64 := hval s w (by rw [hdec])
          refine ⟨by simp [Res.isError, hc], ?_⟩
          intro v _ hv
          simp only [Option.some.injEq] at hv
          subst hv
          exact ⟨rfl, toUInt64_toInt64 w hw⟩
  exact ⟨hin str _ rfl, hin (text_to_cstring t) _ rfl⟩

/-- C7: with a buffer of at least 24 bytes, `b58_encode_u64` writes, for every
64-bit value, a string of length exactly 11 (eleven bytes and the terminator),
each of whose characters belongs to the alphabet. -/
theorem encode_fixed_width (v buflen : Nat) (hv : v < 2 ^ 64) (hbuf : 24 ≤ buflen) :
    ∃ buf, b58_encode_u64 v buflen = Res.ok buf ∧ strlen buf = 11 ∧ buf.length = 12 ∧
      buf = cstring buf ++ [0] ∧ ∀ c ∈ cstring buf, c ∈ B58_ALPH := by
  obtain ⟨tmp, len, hcol, _, _, _, hlen, htmp⟩ := encode_collect_spec v hv
  have hmem : ∀ c ∈ (List.range B58_WIDTH).map
      (fun i => if i < len then tmp.getD (len - 1 - i) 0 else 49), c ∈ B58_ALPH := by
    intro c hc
    obtain ⟨i, _, rfl⟩ := List.mem_map.1 hc
    by_cases hi : i < len
    · rw [if_pos hi, htmp (len - 1 - i) (by omega)]
      apply (alph_at_facts _ _).2.2.1
      by_cases hj : len - 1 - i < (Nat.digits 58 v).length
      · rw [List.getD_eq_getElem _ _ hj]
        exact Nat.digits_lt_base (by decide) (List.getElem_mem _)
      · rw [List.getD_eq_default _ _ (by omega)]
        decide
    · rw [if_neg hi]
      decide
  have hcs : cstring (b58_encode_pad tmp len) = (List.range B58_WIDTH).map
      (fun i => if i < len then tmp.getD (len - 1 - i) 0 else 49) :=
    cstring_append_zero _ [] (fun c hc => (mem_alph_facts c (hmem c hc)).1)
  refine ⟨b58_encode_pad tmp len, ?_, ?_, ?_, ?_, ?_⟩
  · simp only [b58_encode_u64, hcol, if_neg (show ¬ buflen < 24 by omega)]
  · rw [strlen, hcs]
    simp [B58_WIDTH]
  · simp [b58_encode_pad, B58_WIDTH]
  · rw [hcs]
    rfl
  · rw [hcs]
    exact hmem

/-- Witness of C7, at the largest value and the callers' buffer size. -/
theorem encode_fixed_width_witness :
    ∃ buf, b58_encode_u64 (2 ^ 64 - 1) 24 = Res.ok buf ∧ strlen buf = 11 ∧ buf.length = 12 ∧
      buf = cstring buf ++ [0] ∧ ∀ c ∈ cstring buf, c ∈ B58_ALPH :=
  encode_fixed_width (2 ^ 64 - 1) 24 (by norm_num) (by norm_num)

/-- C8: for every 64-bit value the digit collection of `b58_encode_u64` ends
with all its writes inside the 24-byte `tmp`, having collected between 1 and 11
digits (`2^64 < 58^11`); the collected digits denote the value, and each of them
is copied to the 11-character output, so none is cut off. -/
theorem encode_digit_count (v : Nat) (hv : v < 2 ^ 64) :
    ∃ tmp len, b58_encode_collect v = some (tmp, len) ∧ tmp.length = 24 ∧
      1 ≤ len ∧ len ≤ 11 ∧ 2 ^ 64 < 58 ^ 11 ∧
      (∑ j ∈ Finset.range len, digit (tmp.getD j 0) * 58 ^ j = v) ∧
      (∀ j, j < len → (b58_encode_pad tmp len).getD (len - 1 - j) 0 = tmp.getD j 0) := by
  obtain ⟨tmp, len, hcol, h24, h1, h11, hlen, htmp⟩ := encode_collect_spec v hv
  refine ⟨tmp, len, hcol, h24, h1, h11, by norm_num, ?_, ?_⟩
  · have hdig : ∀ j, j < len → digit (tmp.getD j 0) = (Nat.digits 58 v).getD j 0 := by
      intro j hj
      rw [htmp j hj]
      apply (alph_at_facts _ _).2.2.2.2
      by_cases hjl : j < (Nat.digits 58 v).length
      · rw [List.getD_eq_getElem _ _ hjl]
        exact Nat.digits_lt_base (by decide) (List.getElem_mem _)
      · rw [List.getD_eq_default _ _ (by omega)]
        decide
    rw [Finset.sum_congr rfl (fun j hj => by rw [hdig j (Finset.mem_range.1 hj)])]
    by_cases h0 : v = 0
    · subst h0
      have : len = 1 := by simpa using hlen
      subst this
      simp
    · have hpos := digits_length_pos v h0
      have : len = (Nat.digits 58 v).length := by omega
      rw [this, ← ofDigits_eq_sum_getD, Nat.ofDigits_digits]
  · intro j hj
    rw [encode_pad_getD tmp len _ (by omega), if_pos (by omega)]
    congr 1
    omega

/-- Witness of C8, at the largest 64-bit value. -/
theorem encode_digit_count_witness :
    ∃ tmp len, b58_encode_collect (2 ^ 64 - 1) = some (tmp, len) ∧ tmp.length = 24 ∧
      1 ≤ len ∧ len ≤ 11 ∧ 2 ^ 64 < 58 ^ 11 ∧
      (∑ j ∈ Finset.range len, digit (tmp.getD j 0) * 58 ^ j = 2 ^ 64 - 1) ∧
      (∀ j, j < len → (b58_encode_pad tmp len).getD (len - 1 - j) 0 = tmp.getD j 0) :=
  encode_digit_count (2 ^ 64 - 1) (by norm_num)

/-- C9: `b58_encode_u64(0)` writes `"11111111111"`, eleven times the zero
symbol `1` (byte 49), whatever the buffer size from 24 up; so does
`base58id_out` on the datum 0. -/
theorem encode_zero (n : Nat) :
    b58_encode_u64 0 (24 + n) = Res.ok (List.replicate 11 49 ++ [0]) ∧
    cstring (List.replicate 11 49 ++ [0]) = List.replicate 11 49 ∧
    base58id_out 0 = Res.ok (List.replicate 11 49 ++ [0]) := by
  have h : b58_encode_u64 0 (24 + n) = Res.ok (List.replicate 11 49 ++ [0]) := by
    simp only [b58_encode_u64, if_neg (show ¬ 24 + n < 24 by omega), b58_encode_collect, if_true]
    decide
  exact ⟨h, by decide, by decide⟩

/-- C10: `base58id_to_bigint` on the datum of an unsigned `v` raises exactly
when `v > 2^63 - 1` (so at `2^63`) and otherwise returns the signed integer
equal to `v`; `bigint_to_base58id` on `s` raises exactly when `s < 0` (so at
`-1`) and otherwise returns a datum whose unsigned reading equals `s`. -/
theorem narrowing_errors (v : Nat) (hv : v < 2 ^ 64) (s : Int) (hs1 : -2 ^ 63 ≤ s)
    (hs2 : s < 2 ^ 63) :
    ((base58id_to_bigint (RET_BASE58ID v)).isError = true ↔ v > 2 ^ 63 - 1) ∧
    (v ≤ 2 ^ 63 - 1 → base58id_to_bigint (RET_BASE58ID v) = Res.ok (Int.ofNat v)) ∧
    (base58id_to_bigint (RET_BASE58ID (2 ^ 63))).isError = true ∧
    ((bigint_to_base58id s).isError = true ↔ s < 0) ∧
    (0 ≤ s → ∃ d, bigint_to_base58id s = Res.ok d ∧ Int.ofNat (GET_BASE58ID d) = s) ∧
    (bigint_to_base58id (-1)).isError = true := by
  have hget : GET_BASE58ID (RET_BASE58ID v) = v := toUInt64_toInt64 v hv
  refine ⟨?_, ?_, by decide, ?_, ?_, by decide⟩
  · simp only [base58id_to_bigint, hget, INT64_MAX]
    by_cases h : v > 2 ^ 63 - 1
    · rw [if_pos h]
      exact ⟨fun _ => h, fun _ => rfl⟩
    · rw [if_neg h]
      exact ⟨fun hf => absurd hf (by simp [Res.isError]), fun hf => absurd hf h⟩
  · intro h
    simp only [base58id_to_bigint, hget, INT64_MAX, if_neg (show ¬ v > 2 ^ 63 - 1 by omega)]
    congr 1
    unfold toInt64
    rw [Nat.mod_eq_of_lt hv, if_pos (by omega)]
  · unfold bigint_to_base58id
    by_cases h : s < 0
    · simp [h, Res.isError]
    · simp [h, Res.isError]
  · intro h
    refine ⟨RET_BASE58ID (toUInt64 s), ?_, ?_⟩
    · simp only [bigint_to_base58id, if_neg (show ¬ s < 0 by omega)]
    · have h1 : RET_BASE58ID (toUInt64 s) = s := toInt64_toUInt64 s hs1 hs2
      rw [h1]
      simp only [GET_BASE58ID, toUInt64, Int.ofNat_eq_coe]
      omega

/-- Witness of C10, at `v = 2^63 - 1` and `s = 0`. -/
theorem narrowing_errors_witness :
    ((base58id_to_bigint (RET_BASE58ID (2 ^ 63 - 1))).isError = true ↔
        2 ^ 63 - 1 > 2 ^ 63 - 1) ∧
    (2 ^ 63 - 1 ≤ 2 ^ 63 - 1 →
      base58id_to_bigint (RET_BASE58ID (2 ^ 63 - 1)) = Res.ok (Int.ofNat (2 ^ 63 - 1))) ∧
    (base58id_to_bigint (RET_BASE58ID (2 ^ 63))).isError = true ∧
    ((bigint_to_base58id 0).isError = true ↔ (0 : Int) < 0) ∧
    ((0 : Int) ≤ 0 →
      ∃ d, bigint_to_base58id 0 = Res.ok d ∧ Int.ofNat (GET_BASE58ID d) = 0) ∧
    (bigint_to_base58id (-1)).isError = true :=
  narrowing_errors (2 ^ 63 - 1) (by norm_num) 0 (by norm_num) (by norm_num)

/-! ## Evaluations of the encoder and further lemmas -/

theorem encode_u64_one :
    b58_encode_u64 1 24 = Res.ok [50, 49, 49, 49, 49, 49, 49, 49, 49, 49, 49, 0] := by
  simp [b58_encode_u64, b58_encode_collect, b58_encode_loop, b58_encode_pad, B58_WIDTH,
    B58_ALPH_at, B58_ALPH_eq, List.range, List.range.loop]

theorem encode_u64_two :
    b58_encode_u64 2 24 = Res.ok [51, 49, 49, 49, 49, 49, 49, 49, 49, 49, 49, 0] := by
  simp [b58_encode_u64, b58_encode_collect, b58_encode_loop, b58_encode_pad, B58_WIDTH,
    B58_ALPH_at, B58_ALPH_eq, List.range, List.range.loop]

theorem encode_u64_fifty_eight :
    b58_encode_u64 58 24 = Res.ok [50, 49, 49, 49, 49, 49, 49, 49, 49, 49, 49, 0] := by
  simp [b58_encode_u64, b58_encode_collect, b58_encode_loop, b58_encode_pad, B58_WIDTH,
    B58_ALPH_at, B58_ALPH_eq, List.range, List.range.loop]

/-- One step of the decode loop is the table lookup followed by the guarded
multiply-add. -/
theorem decode_loop_cons (idx : List Int) (c : Nat) (p : List Nat) (acc : Nat) :
    b58_decode_loop idx (c :: p) acc =
      if c = 0 then some acc
      else
        match b58_lookup idx c with
        | none => none
        | some v =>
          if acc > (UINT64_MAX - v) / 58 then none
          else b58_decode_loop idx p ((acc * 58 + v) % 2 ^ 64) := by
  by_cases hc : c = 0
  · simp [b58_decode_loop, hc]
  · by_cases hb : c ≥ 128 ∨ idx.getD c 0 < 0
    · simp only [b58_decode_loop, b58_lookup, hc, hb, if_true, if_false]
    · simp only [b58_decode_loop, b58_lookup, hc, hb, if_false]

/-- The lookup on the initialised table: the alphabet index for alphabet bytes,
nothing for the other bytes below 128. -/
theorem lookup_idxT_lt : ∀ c, c < 128 →
    b58_lookup idxT c = if c ∈ B58_ALPH then some (digit c) else none := by
  simp only [b58_lookup, digit, idxT_eq, B58_ALPH_eq]
  decide

theorem alph_at_digit : ∀ c, c ∈ B58_ALPH → B58_ALPH_at (digit c) = c := by
  simp only [B58_ALPH_at, digit, B58_ALPH_eq]
  decide

theorem lookup_idxT_ge (c : Nat) (hc : 128 ≤ c) : b58_lookup idxT c = none := by
  simp [b58_lookup, hc]

theorem lookup_idxT_iff (c i : Nat) :
    b58_lookup idxT c = some i ↔ (i ≤ 57 ∧ B58_ALPH_at i = c) := by
  constructor
  · intro h
    by_cases hc : c < 128
    · rw [lookup_idxT_lt c hc] at h
      by_cases hm : c ∈ B58_ALPH
      · rw [if_pos hm] at h
        simp only [Option.some.injEq] at h
        subst h
        have := (mem_alph_facts c hm).2.2.2
        exact ⟨by omega, alph_at_digit c hm⟩
      · rw [if_neg hm] at h
        exact absurd h (by simp)
    · rw [lookup_idxT_ge c (by omega)] at h
      exact absurd h (by simp)
  · rintro ⟨hi, rfl⟩
    obtain ⟨_, h128, hmem, _, hd⟩ := alph_at_facts i (by omega)
    rw [lookup_idxT_lt _ h128, if_pos hmem, hd]

/-- Leading `1` characters leave the accumulator at 0. -/
theorem decode_loop_leading_ones (k : Nat) (s : List Nat) :
    b58_decode_loop idxT (List.replicate k 49 ++ s) 0 = b58_decode_loop idxT s 0 := by
  induction k with
  | zero => rfl
  | succ k ih =>
    rw [List.replicate_succ, List.cons_append, decode_loop_cons]
    have h49 : b58_lookup idxT 49 = some 0 := (lookup_idxT_iff 49 0).2 (by decide)
    have h1 : ¬ ((49 : Nat) = 0) := by decide
    have h2 : ¬ (0 > (UINT64_MAX - 0) / 58) := by decide
    have h3 : (0 * 58 + 0) % 2 ^ 64 = 0 := by decide
    rw [h49]
    simp only [h1, h2, h3, if_false]
    exact ih

/-- C11: the narrowing conversions are mutual inverses on the common range:
for a signed `s` with `0 <= s`, `bigint_to_base58id` succeeds and
`base58id_to_bigint` of its result returns `s`; for an unsigned `v <= 2^63 - 1`
(stored as the datum `RET_BASE58ID v`), `base58id_to_bigint` succeeds and
`bigint_to_base58id` of its result returns the datum of `v`. -/
theorem narrowing_inverse (s : Int) (hs0 : 0 ≤ s) (hs : s < 2 ^ 63) (v : Nat)
    (hv : v ≤ 2 ^ 63 - 1) :
    (∃ d, bigint_to_base58id s = Res.ok d ∧ base58id_to_bigint d = Res.ok s) ∧
    (∃ r, base58id_to_bigint (RET_BASE58ID v) = Res.ok r ∧ r = Int.ofNat v ∧
      bigint_to_base58id r = Res.ok (RET_BASE58ID v) ∧ GET_BASE58ID (RET_BASE58ID v) = v) := by
  have hv64 : v < 2 ^ 64 := by omega
  have hget : GET_BASE58ID (RET_BASE58ID v) = v := toUInt64_toInt64 v hv64
  have hret : RET_BASE58ID v = Int.ofNat v := by
    simp only [RET_BASE58ID, toInt64]
    rw [Nat.mod_eq_of_lt hv64, if_pos (by omega)]
  constructor
  · refine ⟨RET_BASE58ID (toUInt64 s), ?_, ?_⟩
    · simp only [bigint_to_base58id, if_neg (show ¬ s < 0 by omega)]
    · have h1 : RET_BASE58ID (toUInt64 s) = s := toInt64_toUInt64 s (by omega) hs
      have h2 : GET_BASE58ID s = s.toNat := by
        simp only [GET_BASE58ID, toUInt64]
        omega
      have h3 : toInt64 s.toNat = s := by
        have := toInt64_toUInt64 s (by omega) hs
        simp only [toUInt64] at this
        rw [← this]
        congr 1
        omega
      rw [h1]
      simp only [base58id_to_bigint, h2, INT64_MAX, if_neg (show ¬ s.toNat > 2 ^ 63 - 1 by omega), h3]
  · refine ⟨Int.ofNat v, ?_, rfl, ?_, hget⟩
    · simp only [base58id_to_bigint, hget, INT64_MAX, if_neg (show ¬ v > 2 ^ 63 - 1 by omega)]
      congr 1
    · have h0 : ¬ (Int.ofNat v < 0) := by
        simp only [Int.ofNat_eq_coe]
        omega
      simp only [bigint_to_base58id, if_neg h0]
      congr 1
      rw [← hret]
      exact congrArg RET_BASE58ID hget

/-- Witness of C11, at `s = 2^63 - 1` and `v = 2^63 - 1`. -/
theorem narrowing_inverse_witness :
    (∃ d, bigint_to_base58id (2 ^ 63 - 1) = Res.ok d ∧
      base58id_to_bigint d = Res.ok (2 ^ 63 - 1)) ∧
    (∃ r, base58id_to_bigint (RET_BASE58ID (2 ^ 63 - 1)) = Res.ok r ∧
      r = Int.ofNat (2 ^ 63 - 1) ∧
      bigint_to_base58id r = Res.ok (RET_BASE58ID (2 ^ 63 - 1)) ∧
      GET_BASE58ID (RET_BASE58ID (2 ^ 63 - 1)) = 2 ^ 63 - 1) :=
  narrowing_inverse (2 ^ 63 - 1) (by norm_num) (by norm_num) (2 ^ 63 - 1) (by norm_num)

/-- C12: on the datums of two unsigned 64-bit values `a`, `b` (a value from
`2^63` up is stored as a negative datum), `base58id_cmp` returns -1, 0 or 1 as
`a < b`, `a = b` or `a > b`, and the six boolean operators agree with it. -/
theorem cmp_unsigned_order (a b : Nat) (ha : a < 2 ^ 64) (hb : b < 2 ^ 64) :
    (a < b → base58id_cmp (RET_BASE58ID a) (RET_BASE58ID b) = -1) ∧
    (a = b → base58id_cmp (RET_BASE58ID a) (RET_BASE58ID b) = 0) ∧
    (a > b → base58id_cmp (RET_BASE58ID a) (RET_BASE58ID b) = 1) ∧
    (base58id_lt (RET_BASE58ID a) (RET_BASE58ID b) = true ↔
      base58id_cmp (RET_BASE58ID a) (RET_BASE58ID b) = -1) ∧
    (base58id_le (RET_BASE58ID a) (RET_BASE58ID b) = true ↔
      base58id_cmp (RET_BASE58ID a) (RET_BASE58ID b) ≤ 0) ∧
    (base58id_eq (RET_BASE58ID a) (RET_BASE58ID b) = true ↔
      base58id_cmp (RET_BASE58ID a) (RET_BASE58ID b) = 0) ∧
    (base58id_ne (RET_BASE58ID a) (RET_BASE58ID b) = true ↔
      base58id_cmp (RET_BASE58ID a) (RET_BASE58ID b) ≠ 0) ∧
    (base58id_ge (RET_BASE58ID a) (RET_BASE58ID b) = true ↔
      base58id_cmp (RET_BASE58ID a) (RET_BASE58ID b) ≥ 0) ∧
    (base58id_gt (RET_BASE58ID a) (RET_BASE58ID b) = true ↔
      base58id_cmp (RET_BASE58ID a) (RET_BASE58ID b) = 1) := by
  have hga : GET_BASE58ID (RET_BASE58ID a) = a := toUInt64_toInt64 a ha
  have hgb : GET_BASE58ID (RET_BASE58ID b) = b := toUInt64_toInt64 b hb
  simp only [base58id_cmp, base58id_lt, base58id_le, base58id_eq, base58id_ne, base58id_ge,
    base58id_gt, hga, hgb, decide_eq_true_eq]
  rcases Nat.lt_trichotomy a b with h | h | h
  · have h1 : ¬ a = b := by omega
    have h2 : ¬ a > b := by omega
    have h3 : a ≤ b := by omega
    have h4 : ¬ a ≥ b := by omega
    simp [h, h1, h2, h3, h4]
  · subst h
    simp
  · have h1 : ¬ a = b := by omega
    have h2 : ¬ a < b := by omega
    have h3 : ¬ a ≤ b := by omega
    have h4 : a ≥ b := by omega
    simp [h, h1, h2, h3, h4]

/-- Witness of C12, at `a = 2^63` (a negative datum) and `b = 1`. -/
theorem cmp_unsigned_order_witness :
    RET_BASE58ID (2 ^ 63) < 0 ∧ base58id_cmp (RET_BASE58ID (2 ^ 63)) (RET_BASE58ID 1) = 1 :=
  ⟨by decide, (cmp_unsigned_order (2 ^ 63) 1 (by norm_num) (by norm_num)).2.2.1 (by norm_num)⟩

/-- C13 (ordering consistency fails): `1 < 58`, so `base58id_cmp` gives -1 on
them, but `b58_encode_u64` writes the same string `"21111111111"` for both and
`b58_decode_u64` reads it as `58^10`, so the comparison of the round-tripped
values gives 0. -/
theorem cmp_roundtrip_breaks :
    b58_encode_u64 1 24 = Res.ok [50, 49, 49, 49, 49, 49, 49, 49, 49, 49, 49, 0] ∧
    b58_encode_u64 58 24 = Res.ok [50, 49, 49, 49, 49, 49, 49, 49, 49, 49, 49, 0] ∧
    (b58_decode_u64 B58State.initial [50, 49, 49, 49, 49, 49, 49, 49, 49, 49, 49, 0]).2
      = some 430804206899405824 ∧
    base58id_cmp (RET_BASE58ID 1) (RET_BASE58ID 58) = -1 ∧
    base58id_cmp (RET_BASE58ID 430804206899405824) (RET_BASE58ID 430804206899405824) = 0 :=
  ⟨encode_u64_one, encode_u64_fifty_eight, by decide, by decide, by decide⟩

/-- C14: the alphabet has 58 pairwise distinct characters; once `b58_init` has
run, the lookup of decode gives value `i` for byte `c` exactly when `i <= 57`
and `c` is the `i`-th character of `B58_ALPH`; exactly 58 of the 256 byte codes
have a value, and no code from 128 up has one. -/
theorem inverse_index_correct (st : B58State) (hst : st.Reachable) :
    B58_ALPH.length = 58 ∧ B58_ALPH.Nodup ∧
    (∀ c i, b58_lookup (b58_init st).B58_IDX c = some i ↔ (i ≤ 57 ∧ B58_ALPH_at i = c)) ∧
    ((List.range 256).filter
      (fun c => (b58_lookup (b58_init st).B58_IDX c).isSome)).length = 58 ∧
    (∀ c, 128 ≤ c → b58_lookup (b58_init st).B58_IDX c = none) := by
  rw [b58_init_idx_of_reachable st hst]
  refine ⟨by decide, ?_, lookup_idxT_iff, ?_, lookup_idxT_ge⟩
  · rw [B58_ALPH_eq]
    decide
  · simp only [b58_lookup, idxT_eq]
    decide

/-- Witness of C14, at the state before the first call. -/
theorem inverse_index_correct_witness :
    B58_ALPH.length = 58 ∧ B58_ALPH.Nodup ∧
    (∀ c i, b58_lookup (b58_init B58State.initial).B58_IDX c = some i ↔
      (i ≤ 57 ∧ B58_ALPH_at i = c)) ∧
    ((List.range 256).filter
      (fun c => (b58_lookup (b58_init B58State.initial).B58_IDX c).isSome)).length = 58 ∧
    (∀ c, 128 ≤ c → b58_lookup (b58_init B58State.initial).B58_IDX c = none) :=
  inverse_index_correct B58State.initial (Or.inl rfl)

/-- C15: `k` copies of `1` in front of any string `s` do not change the outcome
of `b58_decode_u64` (same failure, or success with the same value), and `k`
copies of `1` alone decode to 0. -/
theorem leading_ones_no_magnitude (st : B58State) (hst : st.Reachable) (k : Nat)
    (s : List Nat) :
    (b58_decode_u64 st (List.replicate k 49 ++ s)).2 = (b58_decode_u64 st s).2 ∧
    (b58_decode_u64 st (List.replicate k 49)).2 = some 0 := by
  have h : ∀ t : List Nat,
      (b58_decode_u64 st (List.replicate k 49 ++ t)).2 = (b58_decode_u64 st t).2 := by
    intro t
    simp only [b58_decode_u64, b58_init_idx_of_reachable st hst]
    exact decode_loop_leading_ones k t
  refine ⟨h s, ?_⟩
  have h0 := h []
  rw [List.append_nil] at h0
  rw [h0]
  rfl

/-- Witness of C15, at three leading `1` before `"2z"`, which decodes to 115. -/
theorem leading_ones_no_magnitude_witness :
    (b58_decode_u64 B58State.initial (List.replicate 3 49 ++ [50, 122])).2 = some 115 ∧
    (b58_decode_u64 B58State.initial (List.replicate 3 49)).2 = some 0 :=
  ⟨((leading_ones_no_magnitude B58State.initial (Or.inl rfl) 3 [50, 122]).1).trans (by decide),
    (leading_ones_no_magnitude B58State.initial (Or.inl rfl) 3 [50, 122]).2⟩

/-- C16 (injectivity fails): `b58_encode_u64` writes the same 11 characters
`"21111111111"` for the distinct values 1 and 58, the padding being put after
the digits. -/
theorem encode_collision :
    (1 : Nat) ≠ 58 ∧ (1 : Nat) < 2 ^ 64 ∧ (58 : Nat) < 2 ^ 64 ∧
    b58_encode_u64 1 24 = b58_encode_u64 58 24 ∧
    b58_encode_u64 58 24 = Res.ok [50, 49, 49, 49, 49, 49, 49, 49, 49, 49, 49, 0] := by
  refine ⟨by decide, by norm_num, by norm_num, ?_, encode_u64_fifty_eight⟩
  rw [encode_u64_one, encode_u64_fifty_eight]

/-- C17 (the positional reference fails): for `v = 1` the output of
`b58_encode_u64` has `2` at position 0 and `1` at position 10, where the
reference `B58_ALPH[(v / 58^(10-i)) mod 58]` has `1` at position 0 and `2` at
position 10. -/
theorem encode_positional_breaks :
    b58_encode_u64 1 24 = Res.ok [50, 49, 49, 49, 49, 49, 49, 49, 49, 49, 49, 0] ∧
    [50, 49, 49, 49, 49, 49, 49, 49, 49, 49, 49, 0].getD 0 0 = 50 ∧ refChar 1 0 = 49 ∧
    [50, 49, 49, 49, 49, 49, 49, 49, 49, 49, 49, 0].getD 10 0 = 49 ∧ refChar 1 10 = 50 := by
  refine ⟨encode_u64_one, rfl, ?_, rfl, ?_⟩
  · simp only [refChar, B58_ALPH_at, B58_ALPH_eq]
    decide
  · simp only [refChar, B58_ALPH_at, B58_ALPH_eq]
    decide

/-- C18 (byte-wise order fails): `2 < 58`, but `b58_encode_u64(2)` is
`"31111111111"` and `b58_encode_u64(58)` is `"21111111111"`, so the encoding of
58 is the byte-wise smaller one. -/
theorem encode_order_breaks :
    (2 : Nat) < 58 ∧
    b58_encode_u64 2 24 = Res.ok [51, 49, 49, 49, 49, 49, 49, 49, 49, 49, 49, 0] ∧
    b58_encode_u64 58 24 = Res.ok [50, 49, 49, 49, 49, 49, 49, 49, 49, 49, 49, 0] ∧
    bytesLt (cstring [51, 49, 49, 49, 49, 49, 49, 49, 49, 49, 49, 0])
      (cstring [50, 49, 49, 49, 49, 49, 49, 49, 49, 49, 49, 0]) = false ∧
    bytesLt (cstring [50, 49, 49, 49, 49, 49, 49, 49, 49, 49, 49, 0])
      (cstring [51, 49, 49, 49, 49, 49, 49, 49, 49, 49, 49, 0]) = true :=
  ⟨by decide, encode_u64_two, encode_u64_fifty_eight, by decide, by decide⟩

/-- C19 (the canonical form fails): the 11-character string `"11111111112"`
is accepted by `b58_decode_u64` with value 1, and `b58_encode_u64(1)` is the
different string `"21111111111"`. -/
theorem canonical_form_breaks :
    strlen [49, 49, 49, 49, 49, 49, 49, 49, 49, 49, 50, 0] = 11 ∧
    (b58_decode_u64 B58State.initial [49, 49, 49, 49, 49, 49, 49, 49, 49, 49, 50, 0]).2
      = some 1 ∧
    b58_encode_u64 1 24 = Res.ok [50, 49, 49, 49, 49, 49, 49, 49, 49, 49, 49, 0] ∧
    [50, 49, 49, 49, 49, 49, 49, 49, 49, 49, 49, 0] ≠
      [49, 49, 49, 49, 49, 49, 49, 49, 49, 49, 50, 0] :=
  ⟨by decide, by decide, encode_u64_one, by decide⟩

/-- C20: `b58_init` is idempotent: from any state, after one call the flag
`inited` is set, and every further call (one, or `n` in a row) returns the state
unchanged, index and flag; the body is not executed again: in a state whose flag
is set `b58_init` returns that very state, whatever the index holds (so an entry
overwritten after the first call survives the next call); so a second
`b58_decode_u64` leaves the state the first one left, and both see the same
table. -/
theorem init_idempotent (st : B58State) (n : Nat) (s1 s2 : List Nat) :
    (b58_init st).inited = true ∧
    b58_init (b58_init st) = b58_init st ∧
    Nat.iterate b58_init n (b58_init st) = b58_init st ∧
    (b58_decode_u64 (b58_decode_u64 st s1).1 s2).1 = (b58_decode_u64 st s1).1 ∧
    (b58_decode_u64 st s1).1 = b58_init st ∧
    (st.inited = true → b58_init st = st) ∧
    (∀ idx : List Int, b58_init (B58State.mk true idx) = B58State.mk true idx) ∧
    b58_init (B58State.mk true [7]) = B58State.mk true [7] ∧
    (b58_init (B58State.mk true (idxT.set 49 7))).B58_IDX.getD 49 0 = 7 := by
  have hflag : (b58_init st).inited = true := by
    unfold b58_init
    by_cases h : st.inited = true <;> simp [h]
  have hiter : ∀ m : Nat, Nat.iterate b58_init m (b58_init st) = b58_init st := by
    intro m
    induction m with
    | zero => rfl
    | succ m ih => rw [Function.iterate_succ_apply, b58_init_idem, ih]
  have hskip : ∀ t : B58State, t.inited = true → b58_init t = t := by
    intro t ht
    unfold b58_init
    rw [if_pos ht]
  have hset : (b58_init (B58State.mk true (idxT.set 49 7))).B58_IDX.getD 49 0 = 7 := by
    rw [hskip _ rfl, idxT_eq]
    decide
  exact ⟨hflag, b58_init_idem st, hiter n, b58_init_idem st, rfl, hskip st,
    fun idx => hskip _ rfl, hskip _ rfl, hset⟩

end Base58Id
